/-
Verification development for the serial advection-diffusion notebook
(src/paradiag/advection/serial.ipynb).  The numerical engine is embedded
shallowly: stencils are lists of rationals, the scipy diagonal ("dia")
sparse matrices are lists of (offset, constant coefficient) pairs, states
are functions `ZMod n → ℚ`, and applying a dia matrix clips each diagonal
to the n-by-n square exactly as scipy does.
-/
import Mathlib

/-- Embedding of `gradient_stencil(grad, order)` from the notebook: the
centred finite-difference stencil for the `grad`-th gradient with accuracy
`order`.  The nested dictionary lookup raises `KeyError` for a pair absent
from the table; that failure is modelled as `none`. -/
def gradient_stencil (grad order : ℕ) : Option (List ℚ) :=
  if grad = 1 then
    if order = 2 then some [-1/2, 0, 1/2]
    else if order = 4 then some [1/12, -2/3, 0, 2/3, -1/12]
    else if order = 6 then some [-1/60, 3/20, -3/4, 0, 3/4, -3/20, 1/60]
    else none
  else if grad = 2 then
    if order = 2 then some [1, -2, 1]
    else if order = 4 then some [-1/12, 4/3, -5/2, 4/3, -1/12]
    else if order = 6 then some [1/90, -3/20, 3/2, -49/18, 3/2, -3/20, 1/90]
    else none
  else if grad = 4 then
    if order = 2 then some [1, -4, 6, -4, 1]
    else if order = 4 then some [-1/6, 2, -13/2, 28/3, -13/2, 2, -1/6]
    else if order = 6 then
      some [7/240, -2/5, 169/60, -122/15, 91/8, -122/15, 169/60, -2/5, 7/240]
    else none
  else none

/-- C3: `gradient_stencil` returns the tabulated literal coefficients:
derivative 1 accuracy 2 gives [-1/2, 0, 1/2] and derivative 2 accuracy 2
gives [1, -2, 1]. -/
theorem gradient_stencil_literal_values :
    gradient_stencil 1 2 = some [-1/2, 0, 1/2] ∧
    gradient_stencil 2 2 = some [1, -2, 1] := by
  constructor <;> rfl

/-- C4: for every (derivative, accuracy) pair outside the supported set
(1,2,4) by (2,4,6), the stencil lookup fails (KeyError in the source,
`none` in the model), before any assembly work can begin. -/
theorem gradient_stencil_unsupported (grad order : ℕ)
    (h : ¬ ((grad = 1 ∨ grad = 2 ∨ grad = 4) ∧
            (order = 2 ∨ order = 4 ∨ order = 6))) :
    gradient_stencil grad order = none := by
  unfold gradient_stencil
  split_ifs <;> simp_all

/-- Witness for C4 at the concrete unsupported pair (3, 2). -/
theorem gradient_stencil_unsupported_witness :
    ¬ ((3 = 1 ∨ 3 = 2 ∨ 3 = 4) ∧ (2 = 2 ∨ 2 = 4 ∨ 2 = 6)) ∧
    gradient_stencil 3 2 = none :=
  ⟨by decide, gradient_stencil_unsupported 3 2 (by decide)⟩

/-- C5: every stencil in the table sums to exactly 0 (so in particular
within the 1e-12 floating tolerance the spec allows). -/
theorem gradient_stencil_sum_zero (grad order : ℕ) (s : List ℚ)
    (h : gradient_stencil grad order = some s) :
    s.sum = 0 := by
  unfold gradient_stencil at h
  split_ifs at h <;> simp_all <;> norm_num [← h]

/-- Witness for C5 at the concrete supported pair (1, 2). -/
theorem gradient_stencil_sum_zero_witness :
    gradient_stencil 1 2 = some [-1/2, 0, 1/2] ∧
    List.sum [(-1/2 : ℚ), 0, 1/2] = 0 :=
  ⟨rfl, gradient_stencil_sum_zero 1 2 [-1/2, 0, 1/2] rfl⟩

/-- Offset of row `r` of the extended diagonal array built inside
`sparse_circulant` in the notebook.  The three branches embed the three
numpy slice assignments (in array order): rows below `noff` are the
periodic wrap `[-n+1+i for i in range(noff)]`, the middle `ns` rows are the
interior offsets `[-noff+i for i in range(2*noff+1)]`, and the top rows are
the wrap `[n-noff+i for i in range(noff)]`. -/
def circOffset (n ns noff : ℕ) (r : ℕ) : ℤ :=
  if r < noff then -(n : ℤ) + 1 + r
  else if r < noff + ns then (r : ℤ) - 2 * noff
  else (n : ℤ) - noff + ((r : ℤ) - noff - ns)

/-- Coefficient of row `r` of the extended stencil `pstencil` built inside
`sparse_circulant`: `pstencil[:noff] = stencil[noff+1:]`,
`pstencil[noff:-noff] = stencil`, `pstencil[-noff:] = stencil[:noff]`. -/
def circCoeff (stencil : List ℚ) (ns noff : ℕ) (r : ℕ) : ℚ :=
  if r < noff then stencil.getD (noff + 1 + r) 0
  else if r < noff + ns then stencil.getD (r - noff) 0
  else stencil.getD (r - noff - ns) 0

/-- The extended diagonal list `zip(offsets, pstencil)` built inside
`sparse_circulant` for a multi-point stencil: `ns + 2*noff` constant
diagonals, one per row of the tiled `pdiags` array, with
`ns = len(stencil)` and `noff = (ns-1)//2`.  A scipy dia matrix is
represented by its list of (diagonal offset, constant coefficient)
pairs. -/
def circDiags (stencil : List ℚ) (n : ℕ) : List (ℤ × ℚ) :=
  (List.range (stencil.length + 2 * ((stencil.length - 1) / 2))).map
    (fun r => (circOffset n stencil.length ((stencil.length - 1) / 2) r,
               circCoeff stencil stencil.length ((stencil.length - 1) / 2) r))

/-- Embedding of `sparse_circulant(stencil, n)`.  A one-point stencil
becomes the single main diagonal (`spdiags([stencil[0]*ones(n)], 0)`);
otherwise the extended diagonal list `circDiags` is assembled.
`scipy.sparse.dia_matrix` rejects an offsets array containing duplicate
values (which happens exactly in the degenerate regime `n ≤ 2*noff`),
raising `ValueError`; that failure is modelled as `none`. -/
def sparse_circulant (stencil : List ℚ) (n : ℕ) : Option (List (ℤ × ℚ)) :=
  if stencil.length = 1 then some [((0 : ℤ), stencil.getD 0 0)]
  else if ((circDiags stencil n).map Prod.fst).Nodup then
    some (circDiags stencil n)
  else none

/-- Action of a dia matrix (list of constant diagonals) on a length-`n`
state, row `i`: diagonal `d` contributes its coefficient times entry
`i + d` whenever the entry `(i, i+d)` lies inside the n-by-n square, which
is scipy's clipping rule for `spdiags`. -/
def spdiagsApply (n : ℕ) (diags : List (ℤ × ℚ)) (q : ZMod n → ℚ)
    (i : ZMod n) : ℚ :=
  (diags.map (fun dc =>
    if 0 ≤ (i.val : ℤ) + dc.1 ∧ (i.val : ℤ) + dc.1 < (n : ℤ) then
      dc.2 * q (i + (dc.1 : ZMod n))
    else 0)).sum

/-- Cyclic shift of a state by an integer amount `s`. -/
def shiftZ (n : ℕ) (q : ZMod n → ℚ) (s : ℤ) : ZMod n → ℚ :=
  fun i => q (i + (s : ZMod n))

/-- Reference circulant action of a stencil of half-width `noff` on a
periodic state: entry `i` is the stencil-weighted sum of the entries at
cyclic positions `i - noff .. i + noff`. -/
def circApply (n : ℕ) (stencil : List ℚ) (noff : ℕ) (q : ZMod n → ℚ)
    (i : ZMod n) : ℚ :=
  ∑ j ∈ Finset.range stencil.length,
    stencil.getD j 0 * q (i + (((j : ℤ) - noff : ℤ) : ZMod n))

/-- Sum of a list built by mapping over `List.range` equals the
corresponding `Finset.range` sum. -/
lemma list_range_map_sum (m : ℕ) (f : ℕ → ℚ) :
    ((List.range m).map f).sum = ∑ j ∈ Finset.range m, f j := by
  induction m with
  | zero => simp
  | succ k ih => simp [List.range_succ, Finset.sum_range_succ, ih]

/-- C10: the mass operator assembled from the one-point stencil [1] acts as
the identity on every length-n state, for every n ≥ 1. -/
theorem mass_operator_identity (n : ℕ) [NeZero n] (d : List (ℤ × ℚ))
    (h : sparse_circulant [1] n = some d) (q : ZMod n → ℚ) (i : ZMod n) :
    spdiagsApply n d q i = q i := by
  have hd : d = [((0 : ℤ), (1 : ℚ))] := by
    simpa [sparse_circulant] using h.symm
  subst hd
  have hv : ((i.val : ℤ)) < (n : ℤ) := by exact_mod_cast ZMod.val_lt i
  simp only [spdiagsApply, List.map_cons, List.map_nil, List.sum_cons,
    List.sum_nil]
  rw [if_pos (by constructor <;> omega)]
  simp

/-- Witness for C10 at n = 4 with a concrete state and index. -/
theorem mass_operator_identity_witness :
    sparse_circulant [1] 4 = some [((0 : ℤ), (1 : ℚ))] ∧
    spdiagsApply 4 [((0 : ℤ), (1 : ℚ))] (fun j => (j.val : ℚ)) 2 =
      (fun (j : ZMod 4) => (j.val : ℚ)) 2 :=
  ⟨by decide, mass_operator_identity 4 [((0 : ℤ), (1 : ℚ))] (by decide)
    (fun j => (j.val : ℚ)) 2⟩

/-- In the degenerate regime the wrap offsets collide with the interior
offsets: rows `noff - 1` and `3*noff - n` of the extended offsets array
hold the same value `-n + noff`. -/
lemma circOffset_collision (n ns noff : ℕ) (hnoff : 1 ≤ noff)
    (hns : ns = 2 * noff + 1) (hn : n ≤ 2 * noff) :
    circOffset n ns noff (noff - 1) = circOffset n ns noff (3 * noff - n) := by
  unfold circOffset
  rw [if_pos (by omega), if_neg (by omega), if_pos (by omega)]
  push_cast [Nat.cast_sub (by omega : 1 ≤ noff),
    Nat.cast_sub (by omega : n ≤ 3 * noff)]
  ring

/-- On a mesh of size `n ≤ 2k` the duplicate-offset check fires and the
assembly fails. -/
lemma circulant_degenerate_aux (stencil : List ℚ) (n k : ℕ)
    (hlen : stencil.length = 2 * k + 1) (hk : 1 ≤ k) (hn : n ≤ 2 * k) :
    sparse_circulant stencil n = none := by
  have hne : ¬ stencil.length = 1 := by omega
  have hnoff : (stencil.length - 1) / 2 = k := by omega
  have hdup : ¬ ((circDiags stencil n).map Prod.fst).Nodup := by
    intro hnd
    rw [circDiags, List.map_map] at hnd
    have h1 : k - 1 ∈ List.range (stencil.length + 2 *
        ((stencil.length - 1) / 2)) := by
      rw [List.mem_range]; omega
    have h2 : 3 * k - n ∈ List.range (stencil.length + 2 *
        ((stencil.length - 1) / 2)) := by
      rw [List.mem_range]; omega
    have heq := circOffset_collision n stencil.length k hk hlen hn
    have := List.inj_on_of_nodup_map hnd h1 h2
      (by simp [Function.comp, hnoff, heq])
    omega
  rw [sparse_circulant, if_neg hne, if_neg hdup]

/-- C9: calling `sparse_circulant` with a stencil of half-width `k ≥ 1` on
a mesh of size `n ≤ 2k` does not silently produce an operator: the
duplicate diagonal offsets are rejected (scipy raises `ValueError` at
assembly time; the model returns `none`). -/
theorem sparse_circulant_degenerate_none (stencil : List ℚ) (n k : ℕ)
    (hlen : stencil.length = 2 * k + 1) (hk : 1 ≤ k) (hn : n ≤ 2 * k) :
    sparse_circulant stencil n = none :=
  circulant_degenerate_aux stencil n k hlen hk hn

/-- Witness for C9: the 3-point Laplacian stencil on a mesh of 2 points. -/
theorem sparse_circulant_degenerate_none_witness :
    List.length [(1 : ℚ), -2, 1] = 2 * 1 + 1 ∧ 1 ≤ 1 ∧ 2 ≤ 2 * 1 ∧
    sparse_circulant [1, -2, 1] 2 = none :=
  ⟨rfl, le_refl 1, le_refl 2,
    sparse_circulant_degenerate_none [1, -2, 1] 2 1 rfl (le_refl 1)
      (le_refl 2)⟩

/-- A successful assembly of a multi-point stencil implies the
non-degenerate regime `n > 2k` (otherwise the duplicate-offset check would
have failed). -/
lemma circulant_bound_of_some (stencil : List ℚ) (n k : ℕ)
    (hlen : stencil.length = 2 * k + 1) (hk : 1 ≤ k)
    (d : List (ℤ × ℚ)) (hd : sparse_circulant stencil n = some d) :
    2 * k < n := by
  by_contra hle
  rw [circulant_degenerate_aux stencil n k hlen hk (by omega)] at hd
  cases hd

/-- Split a sum over `range (a + b + c)` into the three consecutive
blocks. -/
lemma range_split_three (a b c : ℕ) (f : ℕ → ℚ) :
    ∑ r ∈ Finset.range (a + b + c), f r
      = (∑ r ∈ Finset.range a, f r) + (∑ j ∈ Finset.range b, f (a + j))
        + (∑ m ∈ Finset.range c, f (a + b + m)) := by
  have h1 : ∑ r ∈ Finset.Ico a (a + b), f r
      = ∑ j ∈ Finset.range b, f (a + j) := by
    rw [Finset.sum_Ico_eq_sum_range, Nat.add_sub_cancel_left]
  have h2 : ∑ r ∈ Finset.Ico (a + b) (a + b + c), f r
      = ∑ m ∈ Finset.range c, f (a + b + m) := by
    rw [Finset.sum_Ico_eq_sum_range, Nat.add_sub_cancel_left]
  rw [← h1, ← h2, Finset.range_eq_Ico,
    ← Finset.sum_Ico_consecutive f (Nat.zero_le (a + b))
      (by omega : a + b ≤ a + b + c),
    ← Finset.sum_Ico_consecutive f (Nat.zero_le a) (by omega : a ≤ a + b),
    ← Finset.range_eq_Ico]

/-- Recombination scheme for a periodic band matrix: a sum over the
`ns + 2*noff` extended diagonals equals a sum over the `ns` stencil
positions once each wrap diagonal is paired with its interior partner. -/
lemma three_block_sum (noff : ℕ) (H g : ℕ → ℚ)
    (hlow : ∀ j, j < noff → H (noff + j) + H (noff + (2 * noff + 1) + j) = g j)
    (hcent : H (noff + noff) = g noff)
    (hhigh : ∀ t, t < noff → H (noff + (noff + 1 + t)) + H t = g (noff + 1 + t)) :
    ∑ r ∈ Finset.range ((2 * noff + 1) + 2 * noff), H r
      = ∑ j ∈ Finset.range (2 * noff + 1), g j := by
  have hns : (2 * noff + 1) + 2 * noff = noff + (2 * noff + 1) + noff := by
    omega
  rw [hns, range_split_three noff (2 * noff + 1) noff H]
  have hgsplit : ∑ j ∈ Finset.range (2 * noff + 1), g j
      = (∑ j ∈ Finset.range noff, g j) + g noff
        + (∑ t ∈ Finset.range noff, g (noff + 1 + t)) := by
    have e : 2 * noff + 1 = noff + 1 + noff := by omega
    rw [e, range_split_three noff 1 noff g]
    simp
  have hmsplit : ∑ j ∈ Finset.range (2 * noff + 1), H (noff + j)
      = (∑ j ∈ Finset.range noff, H (noff + j)) + H (noff + noff)
        + (∑ t ∈ Finset.range noff, H (noff + (noff + 1 + t))) := by
    have e : 2 * noff + 1 = noff + 1 + noff := by omega
    rw [e, range_split_three noff 1 noff (fun j => H (noff + j))]
    simp
  rw [hgsplit, hmsplit]
  have e1 : ∑ j ∈ Finset.range noff,
      (H (noff + j) + H (noff + (2 * noff + 1) + j))
      = ∑ j ∈ Finset.range noff, g j :=
    Finset.sum_congr rfl (fun j hj => hlow j (Finset.mem_range.mp hj))
  have e2 : ∑ t ∈ Finset.range noff, (H (noff + (noff + 1 + t)) + H t)
      = ∑ t ∈ Finset.range noff, g (noff + 1 + t) :=
    Finset.sum_congr rfl (fun t ht => hhigh t (Finset.mem_range.mp ht))
  calc (∑ r ∈ Finset.range noff, H r)
        + ((∑ j ∈ Finset.range noff, H (noff + j)) + H (noff + noff)
          + (∑ t ∈ Finset.range noff, H (noff + (noff + 1 + t))))
        + (∑ m ∈ Finset.range noff, H (noff + (2 * noff + 1) + m))
      = (∑ j ∈ Finset.range noff,
          (H (noff + j) + H (noff + (2 * noff + 1) + j)))
        + H (noff + noff)
        + (∑ t ∈ Finset.range noff, (H (noff + (noff + 1 + t)) + H t)) := by
        rw [Finset.sum_add_distrib, Finset.sum_add_distrib]
        ring
    _ = (∑ j ∈ Finset.range noff, g j) + g noff
        + (∑ t ∈ Finset.range noff, g (noff + 1 + t)) := by
        rw [e1, e2, hcent]

/-- Row `noff + j` of the extended array is the interior diagonal at offset
`j - noff`. -/
lemma circOffset_mid (n ns noff j : ℕ) (hj : j < ns) :
    circOffset n ns noff (noff + j) = (j : ℤ) - noff := by
  unfold circOffset
  rw [if_neg (by omega), if_pos (by omega)]
  push_cast
  ring

/-- Row `noff + j` of the extended stencil holds coefficient `stencil[j]`. -/
lemma circCoeff_mid (stencil : List ℚ) (ns noff j : ℕ) (hj : j < ns) :
    circCoeff stencil ns noff (noff + j) = stencil.getD j 0 := by
  unfold circCoeff
  rw [if_neg (by omega), if_pos (by omega)]
  congr 1
  omega

/-- Row `noff + ns + m` of the extended array is the upper wrap diagonal at
offset `n - noff + m`. -/
lemma circOffset_top (n ns noff m : ℕ) :
    circOffset n ns noff (noff + ns + m) = (n : ℤ) - noff + m := by
  unfold circOffset
  rw [if_neg (by omega), if_neg (by omega)]
  push_cast
  ring

/-- Row `noff + ns + m` of the extended stencil holds coefficient
`stencil[m]`. -/
lemma circCoeff_top (stencil : List ℚ) (ns noff m : ℕ) :
    circCoeff stencil ns noff (noff + ns + m) = stencil.getD m 0 := by
  unfold circCoeff
  rw [if_neg (by omega), if_neg (by omega)]
  congr 1
  omega

/-- Row `r < noff` of the extended array is the lower wrap diagonal at
offset `-n + 1 + r`. -/
lemma circOffset_bot (n ns noff r : ℕ) (hr : r < noff) :
    circOffset n ns noff r = -(n : ℤ) + 1 + r :=
  if_pos hr

/-- Row `r < noff` of the extended stencil holds coefficient
`stencil[noff + 1 + r]`. -/
lemma circCoeff_bot (stencil : List ℚ) (ns noff r : ℕ) (hr : r < noff) :
    circCoeff stencil ns noff r = stencil.getD (noff + 1 + r) 0 :=
  if_pos hr

/-- An upper wrap offset reduces modulo `n` to the matching interior
offset. -/
lemma zmod_cast_top (n noff m : ℕ) :
    (((n : ℤ) - noff + m : ℤ) : ZMod n) = (((m : ℤ) - noff : ℤ) : ZMod n) := by
  push_cast
  rw [ZMod.natCast_self]
  ring

/-- A lower wrap offset reduces modulo `n` to the matching interior
offset. -/
lemma zmod_cast_bot (n noff t : ℕ) :
    ((-(n : ℤ) + 1 + t : ℤ) : ZMod n)
      = ((((noff + 1 + t : ℕ) : ℤ) - noff : ℤ) : ZMod n) := by
  push_cast
  rw [ZMod.natCast_self]
  ring

/-- Bridge lemma: every successfully assembled `sparse_circulant` operator
acts on a periodic state exactly as the textbook circulant application of
its stencil (stencil position `j` reads the entry at cyclic index
`i + j - noff`). -/
lemma spdiagsApply_eq_circApply (n noff : ℕ) [NeZero n] (stencil : List ℚ)
    (hlen : stencil.length = 2 * noff + 1) (d : List (ℤ × ℚ))
    (hd : sparse_circulant stencil n = some d) (q : ZMod n → ℚ)
    (i : ZMod n) :
    spdiagsApply n d q i = circApply n stencil noff q i := by
  have hv : ((i.val : ℤ)) < (n : ℤ) := by exact_mod_cast ZMod.val_lt i
  have hv0 : (0 : ℤ) ≤ (i.val : ℤ) := Int.ofNat_nonneg _
  rcases Nat.eq_zero_or_pos noff with h0 | hpos
  · subst h0
    have h1 : stencil.length = 1 := by omega
    have hd' : d = [((0 : ℤ), stencil.getD 0 0)] := by
      rw [sparse_circulant, if_pos h1] at hd
      exact (Option.some.inj hd).symm
    subst hd'
    simp only [spdiagsApply, List.map_cons, List.map_nil, List.sum_cons,
      List.sum_nil]
    rw [if_pos (by constructor <;> omega)]
    rw [circApply, h1]
    simp
  · have hne : ¬ stencil.length = 1 := by omega
    have hbound : 2 * noff < n :=
      circulant_bound_of_some stencil n noff hlen hpos d hd
    have hd' : d = circDiags stencil n := by
      rw [sparse_circulant, if_neg hne] at hd
      split_ifs at hd with hnd
      exact (Option.some.inj hd).symm
    subst hd'
    have hnoff : (stencil.length - 1) / 2 = noff := by omega
    rw [circApply, spdiagsApply, circDiags, hnoff, hlen, List.map_map,
      list_range_map_sum]
    refine three_block_sum noff _ _ ?_ ?_ ?_
    · intro j hj
      simp only [Function.comp_apply]
      rw [circOffset_mid n (2 * noff + 1) noff j (by omega),
        circCoeff_mid stencil (2 * noff + 1) noff j (by omega),
        circOffset_top n (2 * noff + 1) noff j,
        circCoeff_top stencil (2 * noff + 1) noff j,
        zmod_cast_top n noff j]
      by_cases hc : 0 ≤ (i.val : ℤ) + ((j : ℤ) - noff)
      · rw [if_pos ⟨hc, by omega⟩, if_neg (fun h => absurd h.2 (by omega))]
        rw [add_zero]
      · rw [if_neg (fun h => absurd h.1 (by omega)),
          if_pos ⟨by omega, by omega⟩]
        rw [zero_add]
    · simp only [Function.comp_apply]
      rw [circOffset_mid n (2 * noff + 1) noff noff (by omega),
        circCoeff_mid stencil (2 * noff + 1) noff noff (by omega)]
      rw [if_pos (⟨by omega, by omega⟩ :
        0 ≤ (i.val : ℤ) + ((noff : ℤ) - noff) ∧
          (i.val : ℤ) + ((noff : ℤ) - noff) < (n : ℤ))]
    · intro t ht
      simp only [Function.comp_apply]
      rw [circOffset_mid n (2 * noff + 1) noff (noff + 1 + t) (by omega),
        circCoeff_mid stencil (2 * noff + 1) noff (noff + 1 + t) (by omega),
        circOffset_bot n (2 * noff + 1) noff t ht,
        circCoeff_bot stencil (2 * noff + 1) noff t ht,
        zmod_cast_bot n noff t]
      by_cases hc : (i.val : ℤ) + (((noff + 1 + t : ℕ) : ℤ) - noff) < n
      · rw [if_pos ⟨by omega, by omega⟩,
          if_neg (fun h => absurd h.1 (by omega))]
        rw [add_zero]
      · rw [if_neg (fun h => absurd h.2 (by omega)),
          if_pos ⟨by omega, by omega⟩]
        rw [zero_add]

/-- The reference circulant action commutes with cyclic shifts. -/
lemma circApply_shift (n : ℕ) (stencil : List ℚ) (noff : ℕ)
    (q : ZMod n → ℚ) (s : ℤ) (i : ZMod n) :
    circApply n stencil noff (shiftZ n q s) i
      = circApply n stencil noff q (i + (s : ZMod n)) := by
  unfold circApply shiftZ
  refine Finset.sum_congr rfl (fun j hj => ?_)
  congr 1
  rw [add_right_comm]

/-- Every stencil the table can return has odd length `2k + 1` with
`1 ≤ k ≤ 4`. -/
lemma gradient_stencil_odd_length (grad order : ℕ) (st : List ℚ)
    (hst : gradient_stencil grad order = some st) :
    ∃ k, 1 ≤ k ∧ st.length = 2 * k + 1 := by
  unfold gradient_stencil at hst
  split_ifs at hst <;>
    obtain rfl : _ = st := Option.some.inj hst <;>
    first
      | exact ⟨1, by omega, by decide⟩
      | exact ⟨2, by omega, by decide⟩
      | exact ⟨3, by omega, by decide⟩
      | exact ⟨4, by omega, by decide⟩

/-- C6: for every mesh size n ≥ 8 and every operator assembled by
`sparse_circulant` from a stencil supplied by `gradient_stencil`, applying
the operator to a cyclic shift of a state equals the cyclic shift of the
operator applied to the state, for every integer shift. -/
theorem circulant_shift_invariance (n grad order : ℕ) [NeZero n]
    (st : List ℚ) (d : List (ℤ × ℚ)) (hn : 8 ≤ n)
    (hst : gradient_stencil grad order = some st)
    (hd : sparse_circulant st n = some d) (q : ZMod n → ℚ) (s : ℤ)
    (i : ZMod n) :
    spdiagsApply n d (shiftZ n q s) i = shiftZ n (spdiagsApply n d q) s i := by
  obtain ⟨k, hk, hlen⟩ := gradient_stencil_odd_length grad order st hst
  show spdiagsApply n d (shiftZ n q s) i = spdiagsApply n d q (i + (s : ZMod n))
  rw [spdiagsApply_eq_circApply n k st hlen d hd (shiftZ n q s) i,
    spdiagsApply_eq_circApply n k st hlen d hd q (i + (s : ZMod n))]
  exact circApply_shift n st k q s i

/-- Witness for C6: the second-derivative operator on 8 points, a concrete
state, shift 3, row 2. -/
theorem circulant_shift_invariance_witness :
    (8 ≤ 8) ∧
    gradient_stencil 2 2 = some [1, -2, 1] ∧
    sparse_circulant [1, -2, 1] 8
      = some [(-7, 1), (-1, 1), (0, -2), (1, 1), (7, 1)] ∧
    spdiagsApply 8 [(-7, 1), (-1, 1), (0, -2), (1, 1), (7, 1)]
        (shiftZ 8 (fun j => (j.val : ℚ)) 3) 2
      = shiftZ 8
          (spdiagsApply 8 [(-7, 1), (-1, 1), (0, -2), (1, 1), (7, 1)]
            (fun j => (j.val : ℚ))) 3 2 :=
  ⟨le_refl 8, rfl, by decide,
    circulant_shift_invariance 8 2 2 [1, -2, 1]
      [(-7, 1), (-1, 1), (0, -2), (1, 1), (7, 1)] (le_refl 8) rfl
      (by decide) (fun j => (j.val : ℚ)) 3 2⟩

/-- Summing the reference circulant action over all rows factors into the
stencil total times the state total, since each cyclic translate sweeps the
whole periodic mesh. -/
lemma sum_circApply (n : ℕ) [NeZero n] (stencil : List ℚ) (noff : ℕ)
    (q : ZMod n → ℚ) :
    ∑ i : ZMod n, circApply n stencil noff q i
      = (∑ j ∈ Finset.range stencil.length, stencil.getD j 0)
        * ∑ i : ZMod n, q i := by
  unfold circApply
  rw [Finset.sum_comm, Finset.sum_mul]
  refine Finset.sum_congr rfl (fun j hj => ?_)
  rw [← Finset.mul_sum]
  congr 1
  exact Equiv.sum_comp (Equiv.addRight ((((j : ℤ) - noff : ℤ) : ZMod n))) q

/-- Elementwise scaling of a scipy sparse matrix (`c*A`): every stored
diagonal coefficient is multiplied by `c`. -/
def diagScale (c : ℚ) (d : List (ℤ × ℚ)) : List (ℤ × ℚ) :=
  d.map (fun p => (p.1, c * p.2))

/-- Sum of two scipy sparse matrices (`A + B`): the union of the two
diagonal sets.  scipy stores common offsets once with summed coefficients;
keeping both entries in the list is the same linear map, since applying a
dia matrix sums over all stored diagonals. -/
def diagAdd (d1 d2 : List (ℤ × ℚ)) : List (ℤ × ℚ) :=
  d1 ++ d2

/-- Difference of two scipy sparse matrices (`A - B`). -/
def diagSub (d1 d2 : List (ℤ × ℚ)) : List (ℤ × ℚ) :=
  diagAdd d1 (diagScale (-1) d2)

/-- Applying a concatenation of diagonal lists sums the two actions. -/
lemma spdiagsApply_append (n : ℕ) (d1 d2 : List (ℤ × ℚ)) (q : ZMod n → ℚ)
    (i : ZMod n) :
    spdiagsApply n (d1 ++ d2) q i
      = spdiagsApply n d1 q i + spdiagsApply n d2 q i := by
  unfold spdiagsApply
  rw [List.map_append, List.sum_append]

/-- Applying a scaled diagonal list scales the action. -/
lemma spdiagsApply_scale (n : ℕ) (c : ℚ) (d : List (ℤ × ℚ))
    (q : ZMod n → ℚ) (i : ZMod n) :
    spdiagsApply n (diagScale c d) q i = c * spdiagsApply n d q i := by
  induction d with
  | nil => simp [spdiagsApply, diagScale]
  | cons p ps ih =>
      simp only [spdiagsApply, diagScale, List.map_cons, List.sum_cons]
        at ih ⊢
      rw [mul_add, ih]
      congr 1
      split_ifs <;> ring

/-- A multi-point stencil whose offsets pass scipy's duplicate check
assembles to its extended diagonal list. -/
lemma sparse_circulant_eq_circDiags (stencil : List ℚ) (n : ℕ)
    (h1 : ¬ stencil.length = 1)
    (h2 : ((circDiags stencil n).map Prod.fst).Nodup) :
    sparse_circulant stencil n = some (circDiags stencil n) := by
  rw [sparse_circulant, if_neg h1, if_pos h2]

/-- Embedding of the spatial residual assembly from the notebook:
`K = (u/dx)*D - (nu/dx**2)*L`, acting on the diagonal representations of
the advection matrix `D` and the diffusion matrix `L`. -/
def Kmat (u nu dx : ℚ) (Dd Ld : List (ℤ × ℚ)) : List (ℤ × ℚ) :=
  diagSub (diagScale (u / dx) Dd) (diagScale (nu / dx ^ 2) Ld)

/-- C7: the advection-diffusion operator K assembled from the two zero-sum
second-order stencils conserves the mean: the entries of K applied to any
state sum to zero, for any velocity, viscosity and mesh spacing. -/
theorem K_mean_conservation (n : ℕ) [NeZero n] (u nu dx : ℚ)
    (stD stL : List ℚ) (Dd Ld : List (ℤ × ℚ))
    (hstD : gradient_stencil 1 2 = some stD)
    (hstL : gradient_stencil 2 2 = some stL)
    (hD : sparse_circulant stD n = some Dd)
    (hL : sparse_circulant stL n = some Ld)
    (q : ZMod n → ℚ) :
    ∑ i : ZMod n, spdiagsApply n (Kmat u nu dx Dd Ld) q i = 0 := by
  have hD' : some [(-1/2 : ℚ), 0, 1/2] = some stD := hstD
  obtain rfl := (Option.some.inj hD').symm
  have hL' : some [(1 : ℚ), -2, 1] = some stL := hstL
  obtain rfl := (Option.some.inj hL').symm
  have keyD : ∑ i : ZMod n, spdiagsApply n Dd q i = 0 := by
    calc ∑ i : ZMod n, spdiagsApply n Dd q i
        = ∑ i : ZMod n, circApply n [-1/2, 0, 1/2] 1 q i :=
          Finset.sum_congr rfl (fun i _ =>
            spdiagsApply_eq_circApply n 1 [-1/2, 0, 1/2] rfl Dd hD q i)
      _ = (∑ j ∈ Finset.range (List.length [(-1/2 : ℚ), 0, 1/2]),
            List.getD [(-1/2 : ℚ), 0, 1/2] j 0) * ∑ i : ZMod n, q i :=
          sum_circApply n [-1/2, 0, 1/2] 1 q
      _ = 0 := by
          have hz : (∑ j ∈ Finset.range (List.length [(-1/2 : ℚ), 0, 1/2]),
              List.getD [(-1/2 : ℚ), 0, 1/2] j 0) = 0 := by
            norm_num [Finset.sum_range_succ]
          rw [hz, zero_mul]
  have keyL : ∑ i : ZMod n, spdiagsApply n Ld q i = 0 := by
    calc ∑ i : ZMod n, spdiagsApply n Ld q i
        = ∑ i : ZMod n, circApply n [1, -2, 1] 1 q i :=
          Finset.sum_congr rfl (fun i _ =>
            spdiagsApply_eq_circApply n 1 [1, -2, 1] rfl Ld hL q i)
      _ = (∑ j ∈ Finset.range (List.length [(1 : ℚ), -2, 1]),
            List.getD [(1 : ℚ), -2, 1] j 0) * ∑ i : ZMod n, q i :=
          sum_circApply n [1, -2, 1] 1 q
      _ = 0 := by
          have hz : (∑ j ∈ Finset.range (List.length [(1 : ℚ), -2, 1]),
              List.getD [(1 : ℚ), -2, 1] j 0) = 0 := by
            norm_num [Finset.sum_range_succ]
          rw [hz, zero_mul]
  calc ∑ i : ZMod n, spdiagsApply n (Kmat u nu dx Dd Ld) q i
      = ∑ i : ZMod n, ((u / dx) * spdiagsApply n Dd q i
          + (-1) * ((nu / dx ^ 2) * spdiagsApply n Ld q i)) :=
        Finset.sum_congr rfl (fun i _ => by
          rw [Kmat, diagSub, diagAdd]
          simp only [spdiagsApply_append, spdiagsApply_scale])
    _ = (u / dx) * (∑ i : ZMod n, spdiagsApply n Dd q i)
        + (-1) * ((nu / dx ^ 2) * (∑ i : ZMod n, spdiagsApply n Ld q i)) := by
        rw [Finset.sum_add_distrib, ← Finset.mul_sum, ← Finset.mul_sum,
          ← Finset.mul_sum]
    _ = 0 := by rw [keyD, keyL]; ring

/-- Witness for C7 at n = 4, unit coefficients, a concrete state. -/
theorem K_mean_conservation_witness :
    gradient_stencil 1 2 = some [-1/2, 0, 1/2] ∧
    gradient_stencil 2 2 = some [1, -2, 1] ∧
    sparse_circulant [-1/2, 0, 1/2] 4 = some (circDiags [-1/2, 0, 1/2] 4) ∧
    sparse_circulant [1, -2, 1] 4 = some (circDiags [1, -2, 1] 4) ∧
    ∑ i : ZMod 4, spdiagsApply 4
        (Kmat 1 1 1 (circDiags [-1/2, 0, 1/2] 4) (circDiags [1, -2, 1] 4))
        (fun j => (j.val : ℚ)) i = 0 :=
  ⟨rfl, rfl,
    sparse_circulant_eq_circDiags [-1/2, 0, 1/2] 4 (by decide) (by decide),
    sparse_circulant_eq_circDiags [1, -2, 1] 4 (by decide) (by decide),
    K_mean_conservation 4 1 1 1 [-1/2, 0, 1/2] [1, -2, 1]
      (circDiags [-1/2, 0, 1/2] 4) (circDiags [1, -2, 1] 4) rfl rfl
      (sparse_circulant_eq_circDiags [-1/2, 0, 1/2] 4 (by decide) (by decide))
      (sparse_circulant_eq_circDiags [1, -2, 1] 4 (by decide) (by decide))
      (fun j => (j.val : ℚ))⟩

/-- The single main diagonal with coefficient one acts as the identity. -/
lemma spdiagsApply_single_one (n : ℕ) [NeZero n] (q : ZMod n → ℚ)
    (i : ZMod n) :
    spdiagsApply n [((0 : ℤ), (1 : ℚ))] q i = q i := by
  have hv : ((i.val : ℤ)) < (n : ℤ) := by exact_mod_cast ZMod.val_lt i
  simp only [spdiagsApply, List.map_cons, List.map_nil, List.sum_cons,
    List.sum_nil]
  rw [if_pos (by constructor <;> omega)]
  simp

/-- Embedding of `A0 = -M/dt + (1 - theta)*K` from the notebook
(`-M/dt` scales every stored coefficient of `M` by `-(1/dt)`). -/
def A0mat (Md Kd : List (ℤ × ℚ)) (theta dt : ℚ) : List (ℤ × ℚ) :=
  diagAdd (diagScale (-(1 / dt)) Md) (diagScale (1 - theta) Kd)

/-- Embedding of `A1 = M/dt + theta*K` from the notebook. -/
def A1mat (Md Kd : List (ℤ × ℚ)) (theta dt : ℚ) : List (ℤ × ℚ) :=
  diagAdd (diagScale (1 / dt) Md) (diagScale theta Kd)

/-- C8: the implicit-theta system built from mass operator M, residual
operator K, weight theta and timestep dt acts exactly as
`A0 = -(1/dt)*M + (1-theta)*K` and `A1 = (1/dt)*M + theta*K`, and its
solve capability returns a state whose image under A1 is the right-hand
side.  `scipy.sparse.linalg.factorized` is not part of the repository; it
is modelled from the spec by the contract hypothesis `hsolve` (a function
that inverts the action of the assembled A1 on every right-hand side,
factored once and reused unchanged across calls). -/
theorem implicit_system_spec (n : ℕ) [NeZero n] (Md Kd : List (ℤ × ℚ))
    (theta dt : ℚ) (htheta : 0 ≤ theta ∧ theta ≤ 1) (hdt : 0 < dt)
    (solve : (ZMod n → ℚ) → (ZMod n → ℚ))
    (hsolve : ∀ rhs, spdiagsApply n (A1mat Md Kd theta dt) (solve rhs) = rhs)
    (q rhs : ZMod n → ℚ) (i : ZMod n) :
    spdiagsApply n (A0mat Md Kd theta dt) q i
        = -(1 / dt) * spdiagsApply n Md q i
          + (1 - theta) * spdiagsApply n Kd q i
      ∧ spdiagsApply n (A1mat Md Kd theta dt) q i
        = (1 / dt) * spdiagsApply n Md q i + theta * spdiagsApply n Kd q i
      ∧ spdiagsApply n (A1mat Md Kd theta dt) (solve rhs) = rhs := by
  refine ⟨?_, ?_, hsolve rhs⟩ <;>
    simp only [A0mat, A1mat, diagAdd, spdiagsApply_append, spdiagsApply_scale]

/-- Witness for C8 at n = 4, M the assembled mass diagonal, K the assembled
Laplacian, theta = 0, dt = 1, with the identity as the (trivially correct)
solver for this configuration. -/
theorem implicit_system_spec_witness :
    spdiagsApply 4 (A0mat [((0 : ℤ), (1 : ℚ))] (circDiags [1, -2, 1] 4) 0 1)
        (fun j => (j.val : ℚ)) 2
      = -(1 / 1) * spdiagsApply 4 [((0 : ℤ), (1 : ℚ))]
          (fun j => (j.val : ℚ)) 2
        + (1 - 0) * spdiagsApply 4 (circDiags [1, -2, 1] 4)
            (fun j => (j.val : ℚ)) 2
    ∧ spdiagsApply 4 (A1mat [((0 : ℤ), (1 : ℚ))] (circDiags [1, -2, 1] 4) 0 1)
        (fun j => (j.val : ℚ)) 2
      = (1 / 1) * spdiagsApply 4 [((0 : ℤ), (1 : ℚ))] (fun j => (j.val : ℚ)) 2
        + 0 * spdiagsApply 4 (circDiags [1, -2, 1] 4) (fun j => (j.val : ℚ)) 2
    ∧ spdiagsApply 4 (A1mat [((0 : ℤ), (1 : ℚ))] (circDiags [1, -2, 1] 4) 0 1)
        (id (fun j => (j.val : ℚ)))
      = (fun (j : ZMod 4) => (j.val : ℚ)) :=
  implicit_system_spec 4 [((0 : ℤ), (1 : ℚ))] (circDiags [1, -2, 1] 4) 0 1
    ⟨le_refl 0, by norm_num⟩ (by norm_num) id
    (fun rhs => by
      funext i
      simp only [id_eq, A1mat, diagAdd, spdiagsApply_append,
        spdiagsApply_scale, spdiagsApply_single_one]
      norm_num)
    (fun j => (j.val : ℚ)) (fun j => (j.val : ℚ)) 2

/-- One pass of the time loop body from the notebook:
`q[i+1] = A1.solve(-A0.dot(q[i]))`. -/
def thetaStep (n : ℕ) (A0d : List (ℤ × ℚ))
    (solve : (ZMod n → ℚ) → (ZMod n → ℚ)) (q : ZMod n → ℚ) : ZMod n → ℚ :=
  solve (fun i => -(spdiagsApply n A0d q i))

/-- Row `j` of the time series array produced by the notebook's loop
`q = np.zeros((nt+1, nx)); q[0] = qinit; for i in range(nt-1): q[i+1] =
A1.solve(-A0.dot(q[i]))`.  Row 0 is the initial state, rows `1 .. nt-1`
are written by the loop, and any higher row (in particular row `nt` of the
allocated array) keeps its `np.zeros` value. -/
def marchRow (n : ℕ) (A0d : List (ℤ × ℚ))
    (solve : (ZMod n → ℚ) → (ZMod n → ℚ)) (q0 : ZMod n → ℚ) (nt : ℕ) :
    ℕ → (ZMod n → ℚ)
  | 0 => q0
  | j + 1 =>
    if j + 1 ≤ nt - 1 then
      thetaStep n A0d solve (marchRow n A0d solve q0 nt j)
    else fun _ => 0

/-- The zero-velocity, zero-viscosity spatial residual
`K = (0/dx)*D - (0/dx**2)*L` on 4 mesh points with unit spacing. -/
def Kzero4 : List (ℤ × ℚ) :=
  Kmat 0 0 1 (circDiags [-1/2, 0, 1/2] 4) (circDiags [1, -2, 1] 4)

/-- The assembled mass diagonal `sparse_circulant([1], 4)`. -/
def Mass4 : List (ℤ × ℚ) := [((0 : ℤ), (1 : ℚ))]

/-- The explicit-side matrix `A0 = -M/dt + (1-theta)*K` at theta = 1/2,
dt = 1 in the zero-K configuration. -/
def A0zero4 : List (ℤ × ℚ) := A0mat Mass4 Kzero4 (1/2) 1

/-- The implicit-side matrix `A1 = M/dt + theta*K` at theta = 1/2, dt = 1
in the zero-K configuration. -/
def A1zero4 : List (ℤ × ℚ) := A1mat Mass4 Kzero4 (1/2) 1

/-- The all-ones initial state. -/
def onesState : ZMod 4 → ℚ := fun _ => 1

/-- The zero-K residual operator annihilates every state. -/
lemma Kzero4_apply (q : ZMod 4 → ℚ) (i : ZMod 4) :
    spdiagsApply 4 Kzero4 q i = 0 := by
  simp only [Kzero4, Kmat, diagSub, diagAdd, spdiagsApply_append,
    spdiagsApply_scale]
  norm_num

/-- In the zero-K configuration the explicit-side operator negates the
state. -/
lemma A0zero4_apply (q : ZMod 4 → ℚ) (i : ZMod 4) :
    spdiagsApply 4 A0zero4 q i = -(q i) := by
  simp only [A0zero4, A0mat, Mass4, diagAdd, spdiagsApply_append,
    spdiagsApply_scale, spdiagsApply_single_one, Kzero4_apply]
  norm_num

/-- In the zero-K configuration the implicit-side operator acts as the
identity. -/
lemma A1zero4_apply (q : ZMod 4 → ℚ) (i : ZMod 4) :
    spdiagsApply 4 A1zero4 q i = q i := by
  simp only [A1zero4, A1mat, Mass4, diagAdd, spdiagsApply_append,
    spdiagsApply_scale, spdiagsApply_single_one, Kzero4_apply]
  norm_num

/-- In the zero-K configuration one loop pass is the identity on states,
for every solver satisfying the A1 contract. -/
lemma thetaStep_zero4 (solve : (ZMod 4 → ℚ) → (ZMod 4 → ℚ))
    (hsolve : ∀ rhs, spdiagsApply 4 A1zero4 (solve rhs) = rhs)
    (q : ZMod 4 → ℚ) (i : ZMod 4) :
    thetaStep 4 A0zero4 solve q i = q i := by
  have harg : (fun j => -(spdiagsApply 4 A0zero4 q j)) = q := by
    funext j
    rw [A0zero4_apply, neg_neg]
  rw [thetaStep, harg]
  have h1 := congrFun (hsolve q) i
  rw [A1zero4_apply (solve q) i] at h1
  exact h1

/-- C1 (code bug): the notebook's loop `for i in range(nt-1)` stops one
step short.  With nt = 1, for every solver satisfying the A1 contract in
the zero-K, theta = 1/2, dt = 1 configuration, the produced series has
row 1 equal to the untouched `np.zeros` row (entry 0 is 0), while the
recurrence `series[1] = solve(-(A0 series[0]))` required by the claim gives
the all-ones state (entry 0 is 1). -/
theorem march_missing_last_step
    (solve : (ZMod 4 → ℚ) → (ZMod 4 → ℚ))
    (hsolve : ∀ rhs, spdiagsApply 4 A1zero4 (solve rhs) = rhs) :
    marchRow 4 A0zero4 solve onesState 1 1 0 = 0
      ∧ thetaStep 4 A0zero4 solve (marchRow 4 A0zero4 solve onesState 1 0) 0
        = 1 := by
  constructor
  · simp [marchRow]
  · have h0 : marchRow 4 A0zero4 solve onesState 1 0 = onesState := rfl
    rw [h0, thetaStep_zero4 solve hsolve onesState 0]
    rfl

/-- Witness for C1 with the identity solver (correct for this
configuration, where A1 acts as the identity). -/
theorem march_missing_last_step_witness :
    marchRow 4 A0zero4 id onesState 1 1 0 = 0
      ∧ thetaStep 4 A0zero4 id (marchRow 4 A0zero4 id onesState 1 0) 0 = 1 :=
  march_missing_last_step id (fun rhs => by
    funext i
    exact A1zero4_apply rhs i)

/-- C2 (code bug): in the no-op configuration (u = 0, nu = 0, so K is the
zero operator, theta = 1/2, dt = 1) the claim requires `series[i] ==
series[0]` for every i up to nt.  With nt = 1 and the all-ones initial
state, for every solver satisfying the A1 contract the code leaves
series[1] at the `np.zeros` value (entry 0 is 0) while series[0] has entry
0 equal to 1, because the loop `for i in range(nt-1)` never writes the
last allocated row. -/
theorem march_identity_case_fails
    (solve : (ZMod 4 → ℚ) → (ZMod 4 → ℚ))
    (hsolve : ∀ rhs, spdiagsApply 4 A1zero4 (solve rhs) = rhs) :
    marchRow 4 A0zero4 solve onesState 1 1 0 = 0
      ∧ marchRow 4 A0zero4 solve onesState 1 0 0 = 1 := by
  refine ⟨by simp [marchRow], rfl⟩

/-- Witness for C2 with the identity solver. -/
theorem march_identity_case_fails_witness :
    marchRow 4 A0zero4 id onesState 1 1 0 = 0
      ∧ marchRow 4 A0zero4 id onesState 1 0 0 = 1 :=
  march_identity_case_fails id (fun rhs => by
    funext i
    exact A1zero4_apply rhs i)
